import Mathlib

/-!
Verification development for the RiskLens backend (src/backend/main.py).

The quantitative core of the program is shallowly embedded below: weight
dictionaries become association lists over ℚ, numpy vector arithmetic becomes
list/`Finset` arithmetic over ℚ (with real-valued square roots where the
source calls `np.sqrt`), and code that can raise becomes `Except`-valued.
External library calls (riskfolio optimizers, the arch GARCH fit, numpy
pseudo-inverse) are modelled as explicit inputs, with their documented
mathematical contracts stated as hypotheses where a theorem needs them.
-/

namespace RiskLens

/-- Embeds the numpy broadcast `vals / vals.sum()` used throughout
`PortfolioArchitect`. A zero sum follows the Lean zero-division convention;
the theorems below only use it under a positive-sum hypothesis. -/
def normalizeVals (vals : List ℚ) : List ℚ :=
  vals.map (fun v => v / vals.sum)

/-- One pass of the aggressive-growth cap in
`PortfolioArchitect._apply_constraints`:
`vals = np.minimum(vals, max_w)` followed by `vals = vals / vals.sum()`. -/
def capPass (maxW : ℚ) (vals : List ℚ) : List ℚ :=
  normalizeVals (vals.map (fun v => min v maxW))

/-- The `for _ in range(3)` loop of `_apply_constraints`, generalized to `k`
iterations of `capPass`. -/
def capLoop (maxW : ℚ) : Nat → List ℚ → List ℚ
  | 0, vals => vals
  | k + 1, vals => capLoop maxW k (capPass maxW vals)

/-- Embeds `PortfolioArchitect._apply_constraints`. The Python dict is an
association list; `keys = list(...)`, `vals = np.array(...)`,
`dict(zip(keys, vals))` become projections and `List.zip`. The minimum pass
is `vals = np.maximum(vals, 0.05); vals = vals / vals.sum()`; the maximum
pass is three `capPass` iterations at 0.35. -/
def applyConstraints (forceMinWeight : Bool) (objective : String)
    (weightsDict : List (String × ℚ)) : List (String × ℚ) :=
  let w1 :=
    if forceMinWeight then
      let keys := weightsDict.map Prod.fst
      let vals := normalizeVals ((weightsDict.map Prod.snd).map (fun v => max v (5/100)))
      keys.zip vals
    else weightsDict
  if objective == "aggressive_growth" then
    let keys := w1.map Prod.fst
    let vals := capLoop (35/100) 3 (w1.map Prod.snd)
    keys.zip vals
  else w1

/-- Embeds `PortfolioArchitect._process_weights` applied to the optimizer
output of the HRP/NCO path: raise on empty weights, otherwise apply
`_apply_constraints`. Cluster-order bookkeeping is omitted because it never
touches the weights. -/
def processWeights (forceMinWeight : Bool) (objective : String)
    (weights : List (String × ℚ)) : Except String (List (String × ℚ)) :=
  if weights.isEmpty then Except.error "Optimization returned empty weights"
  else Except.ok (applyConstraints forceMinWeight objective weights)

/-- Embeds the tail of `PortfolioArchitect._build_mean_variance`: the external
riskfolio solver output is passed in (`none` models the solver raising or
returning `None`); on success the code always divides by the current total. -/
def buildMeanVariance (solverOut : Option (List (String × ℚ))) :
    Except String (List (String × ℚ)) :=
  match solverOut with
  | none => Except.error "Mean-Variance returned empty weights"
  | some w =>
    if w.isEmpty then Except.error "Mean-Variance returned empty weights"
    else
      let total := (w.map Prod.snd).sum
      Except.ok (w.map (fun kv => (kv.1, kv.2 / total)))

/-- Embeds `PortfolioArchitect.build_portfolio`: the primary strategy is HRP
when the objective equals "safety_first" and NCO otherwise; on a primary
exception the mean-variance fallback runs; if that also fails the code raises.
Each strategy outcome (returned weights or raised exception) is an
`Except`-valued argument because the optimizers are external riskfolio calls. -/
def buildPortfolio (objective : String)
    (hrpResult ncoResult mvResult : Except String (List (String × ℚ))) :
    Except String (List (String × ℚ)) :=
  let primary := if objective == "safety_first" then hrpResult else ncoResult
  match primary with
  | Except.ok w => Except.ok w
  | Except.error _ =>
    match mvResult with
    | Except.ok w => Except.ok w
    | Except.error _ =>
      Except.error "Portfolio optimization failed for all methods. Please check input data."

/-! ### Helper lemmas about list normalization -/

theorem sum_map_div (l : List ℚ) (c : ℚ) :
    (l.map (fun v => v / c)).sum = l.sum / c := by
  induction l with
  | nil => simp
  | cons a t ih => simp [ih, add_div]

theorem normalizeVals_sum (l : List ℚ) (h : l.sum ≠ 0) :
    (normalizeVals l).sum = 1 := by
  simp [normalizeVals, sum_map_div, div_self h]

theorem normalizeVals_length (l : List ℚ) :
    (normalizeVals l).length = l.length := by
  simp [normalizeVals]

theorem normalizeVals_mem_bounds (l : List ℚ) (hnn : ∀ v ∈ l, 0 ≤ v)
    (hpos : 0 < l.sum) :
    ∀ v ∈ normalizeVals l, 0 ≤ v ∧ v ≤ 1 := by
  intro v hv
  simp only [normalizeVals, List.mem_map] at hv
  obtain ⟨a, ha, rfl⟩ := hv
  constructor
  · exact div_nonneg (hnn a ha) (le_of_lt hpos)
  · exact (div_le_one hpos).mpr (List.single_le_sum hnn a ha)

theorem capPass_length (maxW : ℚ) (l : List ℚ) :
    (capPass maxW l).length = l.length := by
  simp [capPass, normalizeVals]

theorem capLoop_length (maxW : ℚ) (k : Nat) (l : List ℚ) :
    (capLoop maxW k l).length = l.length := by
  induction k generalizing l with
  | zero => rfl
  | succ k ih => simp [capLoop, ih, capPass_length]

theorem exists_pos_of_sum_one (l : List ℚ) (hsum : l.sum = 1) :
    ∃ a ∈ l, 0 < a := by
  by_contra hcon
  push_neg at hcon
  have h0 : l.sum ≤ (l.map (fun _ => (0 : ℚ))).sum := by
    have := List.sum_le_sum (l := l) (f := id) (g := fun _ => (0 : ℚ))
      (fun i hi => hcon i hi)
    simpa using this
  simp [hsum] at h0
  linarith

theorem capped_sum_pos (maxW : ℚ) (hmax : 0 < maxW) (l : List ℚ)
    (hnn : ∀ v ∈ l, 0 ≤ v) (hsum : l.sum = 1) :
    0 < (l.map (fun v => min v maxW)).sum := by
  obtain ⟨a, ha, hapos⟩ := exists_pos_of_sum_one l hsum
  have hmem : min a maxW ∈ l.map (fun v => min v maxW) :=
    List.mem_map.mpr ⟨a, ha, rfl⟩
  have hnn2 : ∀ v ∈ l.map (fun v => min v maxW), 0 ≤ v := by
    intro v hv
    simp only [List.mem_map] at hv
    obtain ⟨b, hb, rfl⟩ := hv
    exact le_min (hnn b hb) (le_of_lt hmax)
  have hle := List.single_le_sum hnn2 _ hmem
  have : 0 < min a maxW := lt_min hapos hmax
  linarith

theorem capPass_invariant (maxW : ℚ) (hmax : 0 < maxW) (l : List ℚ)
    (hnn : ∀ v ∈ l, 0 ≤ v) (hsum : l.sum = 1) :
    (∀ v ∈ capPass maxW l, 0 ≤ v) ∧ (capPass maxW l).sum = 1 := by
  have hpos := capped_sum_pos maxW hmax l hnn hsum
  have hnn2 : ∀ v ∈ l.map (fun v => min v maxW), 0 ≤ v := by
    intro v hv
    simp only [List.mem_map] at hv
    obtain ⟨b, hb, rfl⟩ := hv
    exact le_min (hnn b hb) (le_of_lt hmax)
  refine ⟨?_, normalizeVals_sum _ (ne_of_gt hpos)⟩
  intro v hv
  exact (normalizeVals_mem_bounds _ hnn2 hpos v hv).1

theorem capLoop_invariant (maxW : ℚ) (hmax : 0 < maxW) (k : Nat) (l : List ℚ)
    (hnn : ∀ v ∈ l, 0 ≤ v) (hsum : l.sum = 1) :
    (∀ v ∈ capLoop maxW k l, 0 ≤ v) ∧ (capLoop maxW k l).sum = 1 := by
  induction k generalizing l with
  | zero => exact ⟨hnn, hsum⟩
  | succ k ih =>
    obtain ⟨h1, h2⟩ := capPass_invariant maxW hmax l hnn hsum
    exact ih (capPass maxW l) h1 h2

theorem capPass_fixed (maxW : ℚ) (l : List ℚ)
    (hcap : ∀ v ∈ l, v ≤ maxW) (hsum : l.sum = 1) :
    capPass maxW l = l := by
  have hmap : l.map (fun v => min v maxW) = l := by
    conv_rhs => rw [← List.map_id l]
    apply List.map_congr_left
    intro v hv
    exact min_eq_left (hcap v hv)
  simp [capPass, normalizeVals, hmap, hsum]

theorem capLoop_fixed (maxW : ℚ) (k : Nat) (l : List ℚ)
    (hcap : ∀ v ∈ l, v ≤ maxW) (hsum : l.sum = 1) :
    capLoop maxW k l = l := by
  induction k with
  | zero => rfl
  | succ k ih => simp [capLoop, capPass_fixed maxW l hcap hsum, ih]

theorem sum_map_add_const (l : List ℚ) (m : ℚ) :
    (l.map (fun v => v + m)).sum = l.sum + l.length * m := by
  induction l with
  | nil => simp
  | cons a t ih => simp [ih]; ring

theorem zip_map_fst_snd_eq (l : List (String × ℚ)) :
    (l.map Prod.fst).zip (l.map Prod.snd) = l := by
  induction l with
  | nil => rfl
  | cons a t ih => simp [ih]

/-- The minimum-weight stage of `_apply_constraints`: clipping up to 0.05 and
renormalizing keeps the sum at 1 and keeps every weight at least
0.05 / (1 + 0.05 * N), where N is the number of assets. -/
theorem minStage_bounds (vals : List ℚ) (hnn : ∀ v ∈ vals, 0 ≤ v)
    (hsum : vals.sum = 1) :
    (normalizeVals (vals.map (fun v => max v (5/100)))).sum = 1 ∧
    ∀ v ∈ normalizeVals (vals.map (fun v => max v (5/100))),
      (5/100) / (1 + (vals.length : ℚ) * (5/100)) ≤ v ∧ v ≤ 1 := by
  set clipped := vals.map (fun v => max v (5/100)) with hc
  have hlow : ∀ v ∈ clipped, (5/100 : ℚ) ≤ v := by
    intro v hv
    simp only [hc, List.mem_map] at hv
    obtain ⟨b, _, rfl⟩ := hv
    exact le_max_right _ _
  have hnn2 : ∀ v ∈ clipped, (0 : ℚ) ≤ v := fun v hv => le_trans (by norm_num) (hlow v hv)
  have hge1 : (1 : ℚ) ≤ clipped.sum := by
    have h := List.sum_le_sum (l := vals) (f := id) (g := fun v => max v (5/100))
      (fun i _ => le_max_left _ _)
    simpa [hsum] using h
  have hle : clipped.sum ≤ 1 + (vals.length : ℚ) * (5/100) := by
    have h := List.sum_le_sum (l := vals) (f := fun v => max v (5/100))
      (g := fun v => v + (5/100))
      (fun i hi => max_le (by linarith) (by linarith [hnn i hi]))
    rw [sum_map_add_const, hsum] at h
    exact h
  have hpos : (0 : ℚ) < clipped.sum := lt_of_lt_of_le one_pos hge1
  refine ⟨normalizeVals_sum _ (ne_of_gt hpos), ?_⟩
  intro v hv
  simp only [normalizeVals, List.mem_map] at hv
  obtain ⟨a, ha, rfl⟩ := hv
  refine ⟨?_, (normalizeVals_mem_bounds clipped hnn2 hpos _
    (List.mem_map.mpr ⟨a, ha, rfl⟩)).2⟩
  exact div_le_div₀ (hnn2 a ha) (hlow a ha) hpos hle

/-- Internal invariant of `_apply_constraints` for all flag combinations:
nonnegative weights summing to 1 come out nonnegative summing to 1, with the
ticker keys unchanged. -/
theorem applyConstraints_invariant (force : Bool) (objective : String)
    (w : List (String × ℚ)) (hnn : ∀ v ∈ w.map Prod.snd, 0 ≤ v)
    (hsum : (w.map Prod.snd).sum = 1) :
    ((applyConstraints force objective w).map Prod.snd).sum = 1 ∧
    (∀ v ∈ (applyConstraints force objective w).map Prod.snd, 0 ≤ v) ∧
    (applyConstraints force objective w).map Prod.fst = w.map Prod.fst := by
  unfold applyConstraints
  set w1 := if force then
      (w.map Prod.fst).zip
        (normalizeVals ((w.map Prod.snd).map (fun v => max v (5/100))))
    else w with hw1
  have hlen1 : (normalizeVals ((w.map Prod.snd).map (fun v => max v (5/100)))).length
      = (w.map Prod.fst).length := by
    simp [normalizeVals_length]
  have hkeys1 : w1.map Prod.fst = w.map Prod.fst := by
    cases force with
    | false => simp [hw1]
    | true =>
      simp only [hw1, if_true]
      exact List.map_fst_zip _ _ (le_of_eq hlen1.symm)
  have hvals1 : w1.map Prod.snd =
      (if force then
        normalizeVals ((w.map Prod.snd).map (fun v => max v (5/100)))
      else w.map Prod.snd) := by
    cases force with
    | false => simp [hw1]
    | true =>
      simp only [hw1, if_true]
      exact List.map_snd_zip _ _ (le_of_eq hlen1)
  have hstage1 : (w1.map Prod.snd).sum = 1 ∧ ∀ v ∈ w1.map Prod.snd, 0 ≤ v := by
    cases force with
    | false => rw [hvals1]; exact ⟨hsum, hnn⟩
    | true =>
      rw [hvals1]
      obtain ⟨h1, h2⟩ := minStage_bounds (w.map Prod.snd) hnn hsum
      exact ⟨h1, fun v hv => le_trans (by positivity) (h2 v hv).1⟩
  by_cases hobj : (objective == "aggressive_growth") = true
  · simp only [hobj, if_true]
    have hlen2 : (capLoop (35/100) 3 (w1.map Prod.snd)).length
        = (w1.map Prod.fst).length := by
      simp [capLoop_length]
    obtain ⟨hcnn, hcsum⟩ := capLoop_invariant (35/100) (by norm_num) 3
      (w1.map Prod.snd) hstage1.2 hstage1.1
    refine ⟨?_, ?_, ?_⟩
    · rw [List.map_snd_zip _ _ (le_of_eq hlen2)]; exact hcsum
    · rw [List.map_snd_zip _ _ (le_of_eq hlen2)]; exact hcnn
    · rw [List.map_fst_zip _ _ (le_of_eq hlen2.symm)]; exact hkeys1
  · simp only [hobj, if_false]
    exact ⟨hstage1.1, hstage1.2, hkeys1⟩

/-- Claim C1 counterexample: on the HRP/NCO path with forceMinWeight, the code
clips weights up to 0.05 and then renormalizes by the inflated sum, which
pushes the raised weight back below the minimum. On weights
{A: 0.99, B: 0.01} the result is {A: 99/104, B: 5/104}, and
5/104 < 0.05 - 1e-4, so the claimed bound "every weight at least 0.05 - eps"
fails, and the deficit was funded by scaling down the raised asset itself. -/
theorem applyConstraints_min_violation :
    applyConstraints true "smart_balance" [("A", 99/100), ("B", 1/100)]
      = [("A", 99/104), ("B", 5/104)] ∧
    ((5 : ℚ)/104) < 5/100 - 1/10000 := by
  constructor
  · norm_num [applyConstraints, normalizeVals, max_def]
    exact fun h => absurd h (by decide)
  · norm_num

/-- Claim C1 amended: with forceMinWeight on the HRP/NCO path (no
aggressive-growth cap), `_apply_constraints` raises each weight to at least
0.05 and renormalizes by the new sum; the result sums to 1 and each weight is
at least 0.05 / (1 + 0.05 * N), but renormalization can leave weights below
0.05, so the exact 5% floor is not guaranteed. -/
theorem applyConstraints_min_bound (objective : String) (w : List (String × ℚ))
    (hobj : (objective == "aggressive_growth") = false)
    (hnn : ∀ v ∈ w.map Prod.snd, 0 ≤ v)
    (hsum : (w.map Prod.snd).sum = 1) :
    ((applyConstraints true objective w).map Prod.snd).sum = 1 ∧
    ∀ v ∈ (applyConstraints true objective w).map Prod.snd,
      (5/100) / (1 + (w.length : ℚ) * (5/100)) ≤ v ∧ v ≤ 1 := by
  have hlen1 : (normalizeVals ((w.map Prod.snd).map (fun v => max v (5/100)))).length
      = (w.map Prod.fst).length := by
    simp [normalizeVals_length]
  have hred : applyConstraints true objective w =
      (w.map Prod.fst).zip
        (normalizeVals ((w.map Prod.snd).map (fun v => max v (5/100)))) := by
    unfold applyConstraints
    simp [hobj]
  rw [hred, List.map_snd_zip _ _ (le_of_eq hlen1)]
  obtain ⟨h1, h2⟩ := minStage_bounds (w.map Prod.snd) hnn hsum
  refine ⟨h1, fun v hv => ?_⟩
  have := h2 v hv
  simpa using this

/-- Claim C1 amended, witness at a concrete input. -/
theorem applyConstraints_min_bound_witness :
    ((("smart_balance" : String) == "aggressive_growth") = false) ∧
    (∀ v ∈ ([("A", 99/100), ("B", 1/100)] : List (String × ℚ)).map Prod.snd, 0 ≤ v) ∧
    ((([("A", 99/100), ("B", 1/100)] : List (String × ℚ)).map Prod.snd).sum = 1) ∧
    (((applyConstraints true "smart_balance" [("A", 99/100), ("B", 1/100)]).map
        Prod.snd).sum = 1 ∧
      ∀ v ∈ (applyConstraints true "smart_balance"
          [("A", 99/100), ("B", 1/100)]).map Prod.snd,
        (5/100) / (1 + (([("A", (99:ℚ)/100), ("B", 1/100)] : List (String × ℚ)).length : ℚ)
          * (5/100)) ≤ v ∧ v ≤ 1) :=
  ⟨by decide, by norm_num, by norm_num,
    applyConstraints_min_bound "smart_balance" [("A", 99/100), ("B", 1/100)]
      (by decide) (by norm_num) (by norm_num)⟩

/-- Claim C2 counterexample: the aggressive-growth cap does three passes of
clip-at-0.35 followed by renormalization, and the final renormalization can
push weights back above the cap: on weights {A: 0.9, B: 0.1, C: 0} the result
is {A: 0.5, B: 0.5, C: 0}, and 0.5 > 0.35 + 1e-4. -/
theorem applyConstraints_max_violation :
    applyConstraints false "aggressive_growth" [("A", 9/10), ("B", 1/10), ("C", 0)]
      = [("A", 1/2), ("B", 1/2), ("C", 0)] ∧
    ¬ ((1 : ℚ)/2 ≤ 35/100 + 1/10000) := by
  constructor
  · norm_num [applyConstraints, capLoop, capPass, normalizeVals, min_def]
  · norm_num

/-- Claim C2 amended: the three cap-and-renormalize passes guarantee that the
output sums to 1 with every weight in [0,1], and they leave the weights
unchanged (hence capped) when the input already respects the 0.35 cap; in
general a weight can end above 0.35 because every pass renormalizes after
clipping. -/
theorem applyConstraints_max_props (w : List (String × ℚ))
    (hnn : ∀ v ∈ w.map Prod.snd, 0 ≤ v)
    (hsum : (w.map Prod.snd).sum = 1) :
    ((applyConstraints false "aggressive_growth" w).map Prod.snd).sum = 1 ∧
    (∀ v ∈ (applyConstraints false "aggressive_growth" w).map Prod.snd,
      0 ≤ v ∧ v ≤ 1) ∧
    ((∀ v ∈ w.map Prod.snd, v ≤ 35/100) →
      applyConstraints false "aggressive_growth" w = w) := by
  obtain ⟨hs, hn, _⟩ := applyConstraints_invariant false "aggressive_growth" w hnn hsum
  refine ⟨hs, fun v hv => ⟨hn v hv, ?_⟩, ?_⟩
  · have := List.single_le_sum hn v hv
    rw [hs] at this
    exact this
  · intro hcap
    have hred : applyConstraints false "aggressive_growth" w =
        (w.map Prod.fst).zip (capLoop (35/100) 3 (w.map Prod.snd)) := by
      unfold applyConstraints
      simp
    rw [hred, capLoop_fixed (35/100) 3 (w.map Prod.snd) hcap hsum,
      zip_map_fst_snd_eq]

/-- Claim C2 amended, witness at a concrete input. -/
theorem applyConstraints_max_props_witness :
    (∀ v ∈ ([("A", 3/10), ("B", 35/100), ("C", 35/100)] : List (String × ℚ)).map
      Prod.snd, 0 ≤ v) ∧
    ((([("A", 3/10), ("B", 35/100), ("C", 35/100)] : List (String × ℚ)).map
      Prod.snd).sum = 1) ∧
    (((applyConstraints false "aggressive_growth"
        [("A", 3/10), ("B", 35/100), ("C", 35/100)]).map Prod.snd).sum = 1 ∧
      (∀ v ∈ (applyConstraints false "aggressive_growth"
          [("A", 3/10), ("B", 35/100), ("C", 35/100)]).map Prod.snd,
        0 ≤ v ∧ v ≤ 1) ∧
      ((∀ v ∈ ([("A", 3/10), ("B", 35/100), ("C", 35/100)] : List (String × ℚ)).map
          Prod.snd, v ≤ 35/100) →
        applyConstraints false "aggressive_growth"
          [("A", 3/10), ("B", 35/100), ("C", 35/100)]
          = [("A", 3/10), ("B", 35/100), ("C", 35/100)])) :=
  ⟨by norm_num, by norm_num,
    applyConstraints_max_props [("A", 3/10), ("B", 35/100), ("C", 35/100)]
      (by norm_num) (by norm_num)⟩

/-- Claim C3 counterexample: with neither forceMinWeight nor the
AggressiveGrowth objective, the HRP/NCO path applies no final normalization:
`_process_weights` passes the optimizer weights through `_apply_constraints`
unchanged, so weights summing to 1.1 come back summing to 1.1, off by more
than the 1e-4 tolerance; no path-final division by the current sum happens. -/
theorem processWeights_no_normalization :
    processWeights false "smart_balance" [("A", 3/5), ("B", 1/2)]
      = Except.ok [("A", 3/5), ("B", 1/2)] ∧
    ¬ |(([("A", (3:ℚ)/5), ("B", 1/2)].map Prod.snd).sum - 1)| ≤ 1/10000 := by
  constructor
  · norm_num [processWeights, applyConstraints]
    exact fun h => absurd h (by decide)
  · simp only [List.map_cons, List.map_nil, List.sum_cons, List.sum_nil]
    rw [abs_of_pos (by norm_num)]
    norm_num

/-- Claim C3 amended: the mean-variance path always divides by the current
sum, while the HRP/NCO path normalizes only inside constraint enforcement;
assuming the external optimizer returns nonnegative weights summing to 1
(which HRP/NCO guarantee by construction) resp. a positive sum on the
mean-variance path, every successful path returns weights that sum to 1, lie
in [0,1], and keep exactly the optimizer output keys (the asset universe). -/
theorem weights_invariants (force : Bool) (objective : String)
    (w mvw out1 out2 : List (String × ℚ))
    (hnn : ∀ v ∈ w.map Prod.snd, 0 ≤ v)
    (hsum : (w.map Prod.snd).sum = 1)
    (h1 : processWeights force objective w = Except.ok out1)
    (hnn2 : ∀ v ∈ mvw.map Prod.snd, 0 ≤ v)
    (hpos : 0 < (mvw.map Prod.snd).sum)
    (h2 : buildMeanVariance (some mvw) = Except.ok out2) :
    ((out1.map Prod.snd).sum = 1 ∧ (∀ v ∈ out1.map Prod.snd, 0 ≤ v ∧ v ≤ 1) ∧
      out1.map Prod.fst = w.map Prod.fst) ∧
    ((out2.map Prod.snd).sum = 1 ∧ (∀ v ∈ out2.map Prod.snd, 0 ≤ v ∧ v ≤ 1) ∧
      out2.map Prod.fst = mvw.map Prod.fst) := by
  constructor
  · have hne : w.isEmpty = false := by
      cases w with
      | nil => simp at hsum
      | cons a t => rfl
    have hout : out1 = applyConstraints force objective w := by
      unfold processWeights at h1
      rw [hne] at h1
      simpa using h1.symm
    subst hout
    obtain ⟨hs, hn, hk⟩ := applyConstraints_invariant force objective w hnn hsum
    refine ⟨hs, fun v hv => ⟨hn v hv, ?_⟩, hk⟩
    have := List.single_le_sum hn v hv
    rw [hs] at this
    exact this
  · have hne : mvw.isEmpty = false := by
      cases mvw with
      | nil => simp at hpos
      | cons a t => rfl
    have hout : out2 = mvw.map (fun kv => (kv.1, kv.2 / (mvw.map Prod.snd).sum)) := by
      simp only [buildMeanVariance, hne] at h2
      simpa using h2.symm
    subst hout
    have hvals : (mvw.map (fun kv => (kv.1, kv.2 / (mvw.map Prod.snd).sum))).map Prod.snd
        = normalizeVals (mvw.map Prod.snd) := by
      simp [normalizeVals, Function.comp]
    have hkeys : (mvw.map (fun kv => (kv.1, kv.2 / (mvw.map Prod.snd).sum))).map Prod.fst
        = mvw.map Prod.fst := by
      simp [Function.comp]
    rw [hvals, hkeys]
    exact ⟨normalizeVals_sum _ (ne_of_gt hpos),
      normalizeVals_mem_bounds _ hnn2 hpos, rfl⟩

/-- Claim C3 amended, witness at concrete inputs for both paths. -/
theorem weights_invariants_witness :
    (∀ v ∈ ([("A", 1/4), ("B", 3/4)] : List (String × ℚ)).map Prod.snd, 0 ≤ v) ∧
    ((([("A", 1/4), ("B", 3/4)] : List (String × ℚ)).map Prod.snd).sum = 1) ∧
    (processWeights false "smart_balance" [("A", 1/4), ("B", 3/4)]
      = Except.ok [("A", 1/4), ("B", 3/4)]) ∧
    (∀ v ∈ ([("A", 1/4), ("B", 1/4)] : List (String × ℚ)).map Prod.snd, 0 ≤ v) ∧
    (0 < (([("A", 1/4), ("B", 1/4)] : List (String × ℚ)).map Prod.snd).sum) ∧
    (buildMeanVariance (some [("A", 1/4), ("B", 1/4)])
      = Except.ok [("A", 1/2), ("B", 1/2)]) ∧
    ((([("A", (1:ℚ)/4), ("B", 3/4)].map Prod.snd).sum = 1 ∧
      (∀ v ∈ [("A", (1:ℚ)/4), ("B", 3/4)].map Prod.snd, 0 ≤ v ∧ v ≤ 1) ∧
      [("A", (1:ℚ)/4), ("B", 3/4)].map Prod.fst
        = [("A", (1:ℚ)/4), ("B", 3/4)].map Prod.fst) ∧
    (([("A", (1:ℚ)/2), ("B", 1/2)].map Prod.snd).sum = 1 ∧
      (∀ v ∈ [("A", (1:ℚ)/2), ("B", 1/2)].map Prod.snd, 0 ≤ v ∧ v ≤ 1) ∧
      [("A", (1:ℚ)/2), ("B", 1/2)].map Prod.fst
        = [("A", (1:ℚ)/4), ("B", 1/4)].map Prod.fst)) := by
  have hpw : processWeights false "smart_balance" [("A", (1:ℚ)/4), ("B", 3/4)]
      = Except.ok [("A", 1/4), ("B", 3/4)] := by
    norm_num [processWeights, applyConstraints]
    exact fun h => absurd h (by decide)
  have hmv : buildMeanVariance (some [("A", (1:ℚ)/4), ("B", 1/4)])
      = Except.ok [("A", 1/2), ("B", 1/2)] := by
    norm_num [buildMeanVariance]
  exact ⟨by norm_num, by norm_num, hpw, by norm_num, by norm_num, hmv,
    weights_invariants false "smart_balance" [("A", 1/4), ("B", 3/4)]
      [("A", 1/4), ("B", 1/4)] [("A", 1/4), ("B", 3/4)] [("A", 1/2), ("B", 1/2)]
      (by norm_num) (by norm_num) hpw (by norm_num) (by norm_num) hmv⟩

/-- Claim C6: `build_portfolio` fails if and only if both the primary strategy
for the objective (HRP when the objective is safety_first, NCO for
smart_balance and aggressive_growth) and the mean-variance fallback fail; a
successful result is always the primary output or, when the primary raised,
the mean-variance output — never any substituted (equal-weight) portfolio. -/
theorem buildPortfolio_cascade (objective : String)
    (hrp nco mv : Except String (List (String × ℚ)))
    (hobj : objective = "safety_first" ∨ objective = "smart_balance" ∨
      objective = "aggressive_growth") :
    ((buildPortfolio objective hrp nco mv).isOk = false ↔
      ((if objective = "safety_first" then hrp else nco).isOk = false ∧
        mv.isOk = false)) ∧
    (∀ out, buildPortfolio objective hrp nco mv = Except.ok out →
      (if objective = "safety_first" then hrp else nco) = Except.ok out ∨
      (((if objective = "safety_first" then hrp else nco).isOk = false) ∧
        mv = Except.ok out)) := by
  rcases hobj with rfl | rfl | rfl <;>
    cases hrp <;> cases nco <;> cases mv <;>
    simp [buildPortfolio, Except.isOk, Except.toBool]

/-- Claim C6, witness: smart_balance with NCO failing and the mean-variance
fallback succeeding. -/
theorem buildPortfolio_cascade_witness :
    (("smart_balance" : String) = "safety_first" ∨
      ("smart_balance" : String) = "smart_balance" ∨
      ("smart_balance" : String) = "aggressive_growth") ∧
    (((buildPortfolio "smart_balance" (Except.error "hrp failed")
        (Except.error "nco failed") (Except.ok [("A", 1)])).isOk = false ↔
      ((if ("smart_balance" : String) = "safety_first"
          then (Except.error "hrp failed" : Except String (List (String × ℚ)))
          else Except.error "nco failed").isOk = false ∧
        (Except.ok [("A", (1:ℚ))] : Except String (List (String × ℚ))).isOk = false)) ∧
    (∀ out, buildPortfolio "smart_balance" (Except.error "hrp failed")
        (Except.error "nco failed") (Except.ok [("A", 1)]) = Except.ok out →
      (if ("smart_balance" : String) = "safety_first"
          then (Except.error "hrp failed" : Except String (List (String × ℚ)))
          else Except.error "nco failed") = Except.ok out ∨
      (((if ("smart_balance" : String) = "safety_first"
          then (Except.error "hrp failed" : Except String (List (String × ℚ)))
          else Except.error "nco failed").isOk = false) ∧
        (Except.ok [("A", (1:ℚ))] : Except String (List (String × ℚ)))
          = Except.ok out))) :=
  ⟨Or.inr (Or.inl rfl),
    buildPortfolio_cascade "smart_balance" (Except.error "hrp failed")
      (Except.error "nco failed") (Except.ok [("A", 1)]) (Or.inr (Or.inl rfl))⟩

/-- Embeds the per-element cleaning `t.strip().upper()` in
`PortfolioRequest.sanitize_tickers`: whitespace stripped from both ends, then
uppercased (tickers are ASCII, where Python str.upper agrees with
`Char.toUpper`). Written directly on the character list so it evaluates. -/
def cleanTicker (t : String) : String :=
  ⟨(((t.data.dropWhile (fun c => c.isWhitespace)).reverse.dropWhile
      (fun c => c.isWhitespace)).reverse).map Char.toUpper⟩

/-- Embeds the seen-set comprehension in `sanitize_tickers`: remove duplicates
keeping the first occurrence. -/
def dedupKeepFirst (l : List String) : List String :=
  l.foldl (fun acc x => if x ∈ acc then acc else acc ++ [x]) []

/-- Embeds `PortfolioRequest.sanitize_tickers`: uppercase and trim each
ticker, de-duplicate preserving order, then enforce 2..10 distinct tickers. -/
def sanitizeTickers (v : List String) : Except String (List String) :=
  let unique := dedupKeepFirst (v.map cleanTicker)
  if unique.length < 2 then Except.error "Must provide at least 2 distinct tickers."
  else if unique.length > 10 then Except.error "Maximum 10 assets allowed."
  else Except.ok unique

/-- Embeds `sorted(list(set(tickers)))` in `DataManager.__init__`: the asset
universe is the sorted de-duplicated ticker list. Python set() forgets
insertion order, so `List.dedup` serves as the set; the subsequent
lexicographic sort makes the representative order irrelevant. -/
def dmTickers (tickers : List String) : List String :=
  List.mergeSort tickers.dedup

/-- Claim C10: for any two requests whose sanitized ticker lists (after
upper-casing, trimming and de-duplication) are permutations of each other,
`DataManager` constructs the identical asset universe, because it sorts the
de-duplicated tickers; column order and all downstream outputs therefore do
not depend on the order the caller lists the tickers. -/
theorem universe_order_independent (l1 l2 s1 s2 : List String)
    (_h1 : sanitizeTickers l1 = Except.ok s1)
    (_h2 : sanitizeTickers l2 = Except.ok s2)
    (hperm : s1.Perm s2) :
    dmTickers s1 = dmTickers s2 := by
  have hd : s1.dedup.Perm s2.dedup := hperm.dedup
  have p1 := List.mergeSort_perm s1.dedup (fun a b => a ≤ b)
  have p2 := List.mergeSort_perm s2.dedup (fun a b => a ≤ b)
  exact List.eq_of_perm_of_sorted ((p1.trans hd).trans p2.symm)
    (List.sorted_mergeSort' _) (List.sorted_mergeSort' _)

/-- Claim C10, witness: two orderings (with whitespace and case noise) of the
same two tickers sanitize to permuted lists and yield one universe. -/
theorem universe_order_independent_witness :
    sanitizeTickers [" aapl", "MSFT "] = Except.ok ["AAPL", "MSFT"] ∧
    sanitizeTickers ["msft", "AAPL", "aapl "] = Except.ok ["MSFT", "AAPL"] ∧
    (["AAPL", "MSFT"] : List String).Perm ["MSFT", "AAPL"] ∧
    dmTickers ["AAPL", "MSFT"] = dmTickers ["MSFT", "AAPL"] :=
  ⟨rfl, rfl, by decide,
    universe_order_independent [" aapl", "MSFT "] ["msft", "AAPL", "aapl "]
      ["AAPL", "MSFT"] ["MSFT", "AAPL"] rfl rfl (by decide)⟩

/-! ### RiskEngine: covariance, diversification ratio, stress test -/

/-- Column means of a T-by-N return matrix (pandas `.mean()`). -/
def colMean (T N : ℕ) (r : Matrix (Fin T) (Fin N) ℚ) : Fin N → ℚ :=
  fun i => (∑ t, r t i) / T

/-- Sample covariance with ddof=1 (pandas `.cov()`). For T ≤ 1 the ℚ
zero-division convention yields the zero matrix where pandas would produce
NaN (which the serializer later coerces to 0). -/
def sampleCov (T N : ℕ) (r : Matrix (Fin T) (Fin N) ℚ) :
    Matrix (Fin N) (Fin N) ℚ :=
  Matrix.of fun i j =>
    (∑ t, (r t i - colMean T N r i) * (r t j - colMean T N r j)) / ((T : ℚ) - 1)

/-- The de-meaned return matrix, used to factor the sample covariance. -/
def demeaned (T N : ℕ) (r : Matrix (Fin T) (Fin N) ℚ) :
    Matrix (Fin T) (Fin N) ℚ :=
  Matrix.of fun t i => r t i - colMean T N r i

/-- `RiskEngine.__init__` covariance: `returns.cov() * trading_days`. -/
def riskCov (T N tradingDays : ℕ) (r : Matrix (Fin T) (Fin N) ℚ) :
    Matrix (Fin N) (Fin N) ℚ :=
  Matrix.of fun i j => sampleCov T N r i j * tradingDays

/-- Positive semidefiniteness of a rational matrix (quadratic-form form). -/
def IsPSD (N : ℕ) (A : Matrix (Fin N) (Fin N) ℚ) : Prop :=
  ∀ x : Fin N → ℚ, 0 ≤ Matrix.dotProduct x (A.mulVec x)

/-- Embeds `RiskEngine.calculate_diversification_ratio`: weighted sum of the
individual annualized volatilities (square roots of the covariance diagonal)
over the portfolio volatility sqrt(w^T Cov w); returns 1.0 when the portfolio
volatility is not positive. The try/except never fires in exact arithmetic. -/
noncomputable def calcDivRatio (N : ℕ) (cov : Matrix (Fin N) (Fin N) ℚ)
    (w : Fin N → ℚ) : ℝ :=
  let weightedSumVols : ℝ := ∑ i, (w i : ℝ) * Real.sqrt ((cov i i : ℚ) : ℝ)
  let portfolioVol : ℝ := Real.sqrt ((Matrix.dotProduct w (cov.mulVec w) : ℚ) : ℝ)
  if 0 < portfolioVol then weightedSumVols / portfolioVol else 1

/-- The portfolio return series `self.returns.dot(self.weights) * 100` of
`RiskEngine.run_stress_test`, as the list of per-period values. -/
def portfolioSeries (T N : ℕ) (r : Matrix (Fin T) (Fin N) ℚ)
    (w : Fin N → ℚ) : List ℚ :=
  List.ofFn (fun t : Fin T => (∑ i, r t i * w i) * 100)

/-- Embeds `np.percentile(series, 5)` (default linear interpolation): sort
ascending, position (n-1)*5/100, interpolate between the bracketing order
statistics (clamped at the top, where the fraction is 0 anyway). Yields 0 on
an empty list, where numpy raises; the caller catches that exception and
keeps 0 defaults, so the composite behavior matches. -/
def percentile5 (l : List ℚ) : ℚ :=
  let s := l.mergeSort (fun a b => a ≤ b)
  let n := s.length
  if n = 0 then 0
  else
    let pos : ℚ := ((n : ℚ) - 1) * 5 / 100
    let k : ℕ := (⌊pos⌋).toNat
    let frac : ℚ := pos - (k : ℚ)
    s.getD k 0 + frac * (s.getD (min (k + 1) (n - 1)) 0 - s.getD k 0)

/-- Mean of a list (pandas `.mean()`); 0 on the empty list. -/
def listMean (l : List ℚ) : ℚ := l.sum / l.length

/-- Historical-fallback VaR in `run_stress_test`:
`abs(np.percentile(portfolio_series, 5))`. -/
def fallbackVaR (series : List ℚ) : ℚ := |percentile5 series|

/-- The tail observations `portfolio_series[portfolio_series <= -VaR_95]`. -/
def tailObs (series : List ℚ) : List ℚ :=
  series.filter (fun x => x ≤ -(fallbackVaR series))

/-- Historical-fallback ES in `run_stress_test`:
`abs(tail.mean()) if len(tail) > 0 else VaR_95`. -/
def fallbackES (series : List ℚ) : ℚ :=
  if 0 < (tailObs series).length then |listMean (tailObs series)|
  else fallbackVaR series

/-- Sample standard deviation (pandas `.std()`, ddof=1), 0 for series of
length ≤ 1 (pandas NaN, later coerced to 0 by the serializer). -/
noncomputable def sampleStd (l : List ℚ) : ℝ :=
  Real.sqrt (((l.map (fun x => (x - listMean l) ^ 2)).sum
    / ((l.length : ℚ) - 1) : ℚ))

/-- Outcome of the external arch GARCH(1,1,1) Student-t fit as consumed by
`run_stress_test`: one-step forecast variance, fitted degrees of freedom nu,
and the scipy Student-t 5% quantile and pdf-at-quantile for that nu. The
bundled facts record the external-library contracts the code relies on: arch
constrains the StudentsT shape parameter to [2.05, 500], a forecast variance
is nonnegative, and a density value is nonnegative. -/
structure GarchOutcome where
  variance : ℝ
  nu : ℝ
  tQuantile : ℝ
  tPdf : ℝ
  nu_gt : 2 < nu
  variance_nonneg : 0 ≤ variance
  tPdf_nonneg : 0 ≤ tPdf

/-- Embeds `RiskEngine.run_stress_test`. The external GARCH fit result is an
`Option GarchOutcome` (`none` models `arch_model(...).fit(...)` raising). On
a fit the code uses the analytic Student-t VaR/ES with the forecast
volatility; on an exception it falls back to historical simulation, keeping
the sample standard deviation computed before the fit. The returned dict is
an association list in insertion order. -/
noncomputable def runStressTest (T N tradingDays : ℕ)
    (r : Matrix (Fin T) (Fin N) ℚ) (w : Fin N → ℚ)
    (garch : Option GarchOutcome) : List (String × ℝ) :=
  let series := portfolioSeries T N r w
  let vol : ℝ := match garch with
    | some g => Real.sqrt g.variance
    | none => sampleStd series
  let var95 : ℝ := match garch with
    | some g => |Real.sqrt g.variance * g.tQuantile|
    | none => ((fallbackVaR series : ℚ) : ℝ)
  let es95 : ℝ := match garch with
    | some g => Real.sqrt g.variance * ((g.nu + g.tQuantile ^ 2) / (g.nu - 1))
        * (g.tPdf / (5 / 100))
    | none => ((fallbackES series : ℚ) : ℝ)
  [("volatility", vol), ("VaR_95", var95), ("ES_95", es95),
    ("diversification_ratio", calcDivRatio N (riskCov T N tradingDays r) w)]

/-! ### Positive semidefiniteness of the sample covariance -/

theorem sampleCov_eq_smul (T N : ℕ) (r : Matrix (Fin T) (Fin N) ℚ) :
    sampleCov T N r
      = ((T : ℚ) - 1)⁻¹ • ((demeaned T N r).transpose * demeaned T N r) := by
  ext i j
  simp only [sampleCov, demeaned, Matrix.smul_apply, Matrix.mul_apply,
    Matrix.transpose_apply, Matrix.of_apply, smul_eq_mul]
  rw [div_eq_mul_inv, mul_comm]

theorem sampleCov_psd (T N : ℕ) (r : Matrix (Fin T) (Fin N) ℚ) :
    IsPSD N (sampleCov T N r) := by
  intro x
  rw [sampleCov_eq_smul, Matrix.smul_mulVec_assoc, Matrix.dotProduct_smul,
    smul_eq_mul]
  have hq : 0 ≤ Matrix.dotProduct x
      (((demeaned T N r).transpose * demeaned T N r).mulVec x) := by
    rw [← Matrix.mulVec_mulVec, Matrix.dotProduct_mulVec,
      Matrix.vecMul_transpose]
    simp only [Matrix.dotProduct]
    exact Finset.sum_nonneg fun t _ => mul_self_nonneg _
  rcases le_or_lt T 1 with hT | hT
  · interval_cases T
    · have hzero : (demeaned 0 N r).transpose * demeaned 0 N r = 0 := by
        ext i j
        simp [Matrix.mul_apply]
      rw [hzero]
      simp
    · norm_num
  · have hc : (0 : ℚ) < (T : ℚ) - 1 := by
      have h2 : (2 : ℚ) ≤ (T : ℚ) := by exact_mod_cast hT
      linarith
    exact mul_nonneg (inv_nonneg.mpr hc.le) hq

theorem riskCov_eq_smul (T N tradingDays : ℕ) (r : Matrix (Fin T) (Fin N) ℚ) :
    riskCov T N tradingDays r = (tradingDays : ℚ) • sampleCov T N r := by
  ext i j
  simp only [riskCov, Matrix.smul_apply, Matrix.of_apply, smul_eq_mul]
  rw [mul_comm]

theorem riskCov_psd (T N tradingDays : ℕ) (r : Matrix (Fin T) (Fin N) ℚ) :
    IsPSD N (riskCov T N tradingDays r) := by
  intro x
  rw [riskCov_eq_smul, Matrix.smul_mulVec_assoc, Matrix.dotProduct_smul,
    smul_eq_mul]
  exact mul_nonneg (by positivity) (sampleCov_psd T N r x)

theorem riskCov_symm (T N tradingDays : ℕ) (r : Matrix (Fin T) (Fin N) ℚ)
    (i j : Fin N) : riskCov T N tradingDays r i j = riskCov T N tradingDays r j i := by
  simp only [riskCov, sampleCov, Matrix.of_apply]
  congr 2
  exact Finset.sum_congr rfl fun t _ => mul_comm _ _

/-- The two-coordinate test vector x e_i + e_j used to extract principal
2-by-2 minors from the positive-semidefiniteness of the covariance. -/
def pairVec (N : ℕ) (i j : Fin N) (x : ℚ) : Fin N → ℚ :=
  fun k => (if k = i then x else 0) + (if k = j then 1 else 0)

theorem quadform_pair (N : ℕ) (A : Matrix (Fin N) (Fin N) ℚ) (i j : Fin N)
    (x : ℚ) :
    Matrix.dotProduct (pairVec N i j x) (A.mulVec (pairVec N i j x))
      = A i i * (x * x) + (A i j + A j i) * x + A j j := by
  have hinner : ∀ k, (A.mulVec (pairVec N i j x)) k = A k i * x + A k j := by
    intro k
    simp only [Matrix.mulVec, Matrix.dotProduct, pairVec, mul_add, mul_ite,
      mul_one, mul_zero, Finset.sum_add_distrib, Finset.sum_ite_eq',
      Finset.mem_univ, if_true]
  simp only [Matrix.dotProduct, hinner, pairVec, add_mul, ite_mul, one_mul,
    zero_mul, Finset.sum_add_distrib, Finset.sum_ite_eq', Finset.mem_univ,
    if_true]
  ring

theorem psd_diag_nonneg (N : ℕ) (A : Matrix (Fin N) (Fin N) ℚ)
    (hA : IsPSD N A) (i : Fin N) : 0 ≤ A i i := by
  have h := hA (pairVec N i i 0)
  rw [quadform_pair] at h
  simpa using h

theorem psd_entry_bound (N : ℕ) (A : Matrix (Fin N) (Fin N) ℚ)
    (hA : IsPSD N A) (hsymm : ∀ i j, A i j = A j i) (i j : Fin N) :
    A i j * A i j ≤ A i i * A j j := by
  have hquad : ∀ x : ℚ, 0 ≤ A i i * (x * x) + (A i j + A j i) * x + A j j := by
    intro x
    have h := hA (pairVec N i j x)
    rw [quadform_pair] at h
    exact h
  have hd := discrim_le_zero hquad
  rw [discrim] at hd
  have hsij := hsymm i j
  rw [← hsij] at hd
  nlinarith [hd]

theorem entry_le_sqrt_mul (N : ℕ) (A : Matrix (Fin N) (Fin N) ℚ)
    (hA : IsPSD N A) (hsymm : ∀ i j, A i j = A j i) (i j : Fin N) :
    ((A i j : ℚ) : ℝ) ≤ Real.sqrt ((A i i : ℚ) : ℝ) * Real.sqrt ((A j j : ℚ) : ℝ) := by
  have h1 : A i j * A i j ≤ A i i * A j j := psd_entry_bound N A hA hsymm i j
  have h2 : ((A i j : ℚ) : ℝ) ^ 2 ≤ ((A i i : ℚ) : ℝ) * ((A j j : ℚ) : ℝ) := by
    rw [sq]
    exact_mod_cast h1
  calc ((A i j : ℚ) : ℝ) ≤ |((A i j : ℚ) : ℝ)| := le_abs_self _
    _ = Real.sqrt (((A i j : ℚ) : ℝ) ^ 2) := (Real.sqrt_sq_eq_abs _).symm
    _ ≤ Real.sqrt (((A i i : ℚ) : ℝ) * ((A j j : ℚ) : ℝ)) := Real.sqrt_le_sqrt h2
    _ = Real.sqrt ((A i i : ℚ) : ℝ) * Real.sqrt ((A j j : ℚ) : ℝ) :=
        Real.sqrt_mul (by exact_mod_cast psd_diag_nonneg N A hA i) _

theorem quadform_le_weighted_vol_sq (N : ℕ) (A : Matrix (Fin N) (Fin N) ℚ)
    (hA : IsPSD N A) (hsymm : ∀ i j, A i j = A j i) (w : Fin N → ℚ)
    (hw : ∀ i, 0 ≤ w i) :
    ((Matrix.dotProduct w (A.mulVec w) : ℚ) : ℝ)
      ≤ (∑ i, (w i : ℝ) * Real.sqrt ((A i i : ℚ) : ℝ)) ^ 2 := by
  have hlhs : ((Matrix.dotProduct w (A.mulVec w) : ℚ) : ℝ)
      = ∑ i, ∑ j, (w i : ℝ) * ((A i j : ℚ) : ℝ) * (w j : ℝ) := by
    simp only [Matrix.dotProduct, Matrix.mulVec]
    push_cast
    congr 1
    funext i
    rw [Finset.mul_sum]
    congr 1
    funext j
    ring
  have hrhs : (∑ i, (w i : ℝ) * Real.sqrt ((A i i : ℚ) : ℝ)) ^ 2
      = ∑ i, ∑ j, ((w i : ℝ) * Real.sqrt ((A i i : ℚ) : ℝ))
        * ((w j : ℝ) * Real.sqrt ((A j j : ℚ) : ℝ)) := by
    rw [sq, Finset.sum_mul_sum]
  rw [hlhs, hrhs]
  apply Finset.sum_le_sum
  intro i _
  apply Finset.sum_le_sum
  intro j _
  have hbound := entry_le_sqrt_mul N A hA hsymm i j
  have hwi : (0 : ℝ) ≤ (w i : ℝ) := by exact_mod_cast hw i
  have hwj : (0 : ℝ) ≤ (w j : ℝ) := by exact_mod_cast hw j
  calc (w i : ℝ) * ((A i j : ℚ) : ℝ) * (w j : ℝ)
      ≤ (w i : ℝ) * (Real.sqrt ((A i i : ℚ) : ℝ) * Real.sqrt ((A j j : ℚ) : ℝ))
        * (w j : ℝ) := by
        apply mul_le_mul_of_nonneg_right _ hwj
        exact mul_le_mul_of_nonneg_left hbound hwi
    _ = (w i : ℝ) * Real.sqrt ((A i i : ℚ) : ℝ)
        * ((w j : ℝ) * Real.sqrt ((A j j : ℚ) : ℝ)) := by ring

/-- Claim C8: the diversification ratio equals the weighted sum of individual
annualized volatilities over the portfolio volatility, equals 1.0 by
convention when the portfolio volatility is zero, and is at least 1 for every
portfolio with nonnegative weights whenever the portfolio volatility is
positive — the sample covariance (annualized by trading days) is positive
semidefinite, which bounds the portfolio volatility by the weighted sum. -/
theorem divRatio_props (T N tradingDays : ℕ) (r : Matrix (Fin T) (Fin N) ℚ)
    (w : Fin N → ℚ) (hw : ∀ i, 0 ≤ w i) :
    (¬ 0 < Real.sqrt ((Matrix.dotProduct w
        ((riskCov T N tradingDays r).mulVec w) : ℚ) : ℝ) →
      calcDivRatio N (riskCov T N tradingDays r) w = 1) ∧
    (0 < Real.sqrt ((Matrix.dotProduct w
        ((riskCov T N tradingDays r).mulVec w) : ℚ) : ℝ) →
      calcDivRatio N (riskCov T N tradingDays r) w
        = (∑ i, (w i : ℝ) * Real.sqrt ((riskCov T N tradingDays r i i : ℚ) : ℝ))
          / Real.sqrt ((Matrix.dotProduct w
            ((riskCov T N tradingDays r).mulVec w) : ℚ) : ℝ) ∧
      1 ≤ calcDivRatio N (riskCov T N tradingDays r) w) := by
  constructor
  · intro hnp
    simp only [calcDivRatio, if_neg hnp]
  · intro hp
    have hform : calcDivRatio N (riskCov T N tradingDays r) w
        = (∑ i, (w i : ℝ) * Real.sqrt ((riskCov T N tradingDays r i i : ℚ) : ℝ))
          / Real.sqrt ((Matrix.dotProduct w
            ((riskCov T N tradingDays r).mulVec w) : ℚ) : ℝ) := by
      simp only [calcDivRatio, if_pos hp]
    refine ⟨hform, ?_⟩
    rw [hform]
    rw [le_div_iff₀ hp, one_mul]
    have hq := quadform_le_weighted_vol_sq N (riskCov T N tradingDays r)
      (riskCov_psd T N tradingDays r) (riskCov_symm T N tradingDays r) w hw
    have hS : 0 ≤ ∑ i, (w i : ℝ) * Real.sqrt ((riskCov T N tradingDays r i i : ℚ) : ℝ) := by
      apply Finset.sum_nonneg
      intro i _
      exact mul_nonneg (by exact_mod_cast hw i) (Real.sqrt_nonneg _)
    calc Real.sqrt ((Matrix.dotProduct w
          ((riskCov T N tradingDays r).mulVec w) : ℚ) : ℝ)
        ≤ Real.sqrt ((∑ i, (w i : ℝ)
            * Real.sqrt ((riskCov T N tradingDays r i i : ℚ) : ℝ)) ^ 2) :=
          Real.sqrt_le_sqrt hq
      _ = ∑ i, (w i : ℝ) * Real.sqrt ((riskCov T N tradingDays r i i : ℚ) : ℝ) := by
          rw [Real.sqrt_sq hS]

/-- Claim C8, witness: two assets, weights (1, 0), returns giving a positive
portfolio variance. -/
theorem divRatio_props_witness :
    (∀ i, 0 ≤ (![1, 0] : Fin 2 → ℚ) i) ∧
    ((¬ 0 < Real.sqrt ((Matrix.dotProduct (![1, 0] : Fin 2 → ℚ)
        ((riskCov 2 2 252 !![(1 : ℚ), 0; 0, 0]).mulVec ![1, 0]) : ℚ) : ℝ) →
      calcDivRatio 2 (riskCov 2 2 252 !![(1 : ℚ), 0; 0, 0]) ![1, 0] = 1) ∧
    (0 < Real.sqrt ((Matrix.dotProduct (![1, 0] : Fin 2 → ℚ)
        ((riskCov 2 2 252 !![(1 : ℚ), 0; 0, 0]).mulVec ![1, 0]) : ℚ) : ℝ) →
      calcDivRatio 2 (riskCov 2 2 252 !![(1 : ℚ), 0; 0, 0]) ![1, 0]
        = (∑ i, ((![1, 0] : Fin 2 → ℚ) i : ℝ)
            * Real.sqrt ((riskCov 2 2 252 !![(1 : ℚ), 0; 0, 0] i i : ℚ) : ℝ))
          / Real.sqrt ((Matrix.dotProduct (![1, 0] : Fin 2 → ℚ)
            ((riskCov 2 2 252 !![(1 : ℚ), 0; 0, 0]).mulVec ![1, 0]) : ℚ) : ℝ) ∧
      1 ≤ calcDivRatio 2 (riskCov 2 2 252 !![(1 : ℚ), 0; 0, 0]) ![1, 0])) :=
  ⟨by intro i; fin_cases i <;> norm_num,
    divRatio_props 2 2 252 !![(1 : ℚ), 0; 0, 0] ![1, 0]
      (by intro i; fin_cases i <;> norm_num)⟩

/-! ### Claims C4 and C7: the stress-test report -/

/-- Claim C4 counterexample: the report returned by `run_stress_test` has no
risk_contribution entry at all — the line is commented out in the source and
no `_calc_risk_contribution` method exists — shown at a concrete input. -/
theorem stressTest_no_risk_contribution :
    "risk_contribution" ∉
      (runStressTest 2 2 252 !![(1 : ℚ), 0; 0, 0] ![1, 0] none).map Prod.fst ∧
    (runStressTest 2 2 252 !![(1 : ℚ), 0; 0, 0] ![1, 0] none).map Prod.fst
      = ["volatility", "VaR_95", "ES_95", "diversification_ratio"] := by
  constructor
  · simp [runStressTest]
  · simp [runStressTest]

/-- Claim C4 amended: for every input and either GARCH outcome, the risk
report contains exactly the keys volatility, VaR_95, ES_95 and
diversification_ratio, in that order; no risk_contribution mapping (and hence
no shares summing to 1) is produced. -/
theorem stressTest_keys (T N tradingDays : ℕ) (r : Matrix (Fin T) (Fin N) ℚ)
    (w : Fin N → ℚ) (garch : Option GarchOutcome) :
    (runStressTest T N tradingDays r w garch).map Prod.fst
      = ["volatility", "VaR_95", "ES_95", "diversification_ratio"] := by
  simp [runStressTest]

/-- Claim C7 amended: the stress test is total on both paths. When the GARCH
fit raises, the code returns the historical fallback — VaR_95 is the absolute
5th percentile, ES_95 is the absolute value of the mean of the observations
at or below minus VaR_95 (or VaR_95 when none qualify), and the volatility is
the sample standard deviation; when the fit succeeds, the analytic Student-t
formulas apply. Volatility, VaR_95 and ES_95 are nonnegative on both paths
(the GARCH path uses the arch shape-parameter bound nu > 2 and the scipy pdf
nonnegativity recorded in `GarchOutcome`). -/
theorem stressTest_fallback_props (T N tradingDays : ℕ)
    (r : Matrix (Fin T) (Fin N) ℚ) (w : Fin N → ℚ) :
    (runStressTest T N tradingDays r w none =
      [("volatility", sampleStd (portfolioSeries T N r w)),
        ("VaR_95", ((fallbackVaR (portfolioSeries T N r w) : ℚ) : ℝ)),
        ("ES_95", ((fallbackES (portfolioSeries T N r w) : ℚ) : ℝ)),
        ("diversification_ratio", calcDivRatio N (riskCov T N tradingDays r) w)]) ∧
    (0 ≤ sampleStd (portfolioSeries T N r w) ∧
      0 ≤ fallbackVaR (portfolioSeries T N r w) ∧
      0 ≤ fallbackES (portfolioSeries T N r w)) ∧
    (∀ g : GarchOutcome,
      runStressTest T N tradingDays r w (some g) =
        [("volatility", Real.sqrt g.variance),
          ("VaR_95", |Real.sqrt g.variance * g.tQuantile|),
          ("ES_95", Real.sqrt g.variance * ((g.nu + g.tQuantile ^ 2) / (g.nu - 1))
            * (g.tPdf / (5 / 100))),
          ("diversification_ratio", calcDivRatio N (riskCov T N tradingDays r) w)] ∧
      0 ≤ Real.sqrt g.variance ∧
      0 ≤ |Real.sqrt g.variance * g.tQuantile| ∧
      0 ≤ Real.sqrt g.variance * ((g.nu + g.tQuantile ^ 2) / (g.nu - 1))
        * (g.tPdf / (5 / 100))) := by
  have hES : 0 ≤ fallbackES (portfolioSeries T N r w) := by
    rw [fallbackES]
    split
    · exact abs_nonneg _
    · rw [fallbackVaR]
      exact abs_nonneg _
  have hVaR : 0 ≤ fallbackVaR (portfolioSeries T N r w) := by
    rw [fallbackVaR]
    exact abs_nonneg _
  refine ⟨rfl, ⟨Real.sqrt_nonneg _, hVaR, hES⟩, fun g => ⟨rfl, Real.sqrt_nonneg _,
    abs_nonneg _, ?_⟩⟩
  have h1 : (0 : ℝ) < g.nu - 1 := by linarith [g.nu_gt]
  have h2 : (0 : ℝ) ≤ g.nu + g.tQuantile ^ 2 := by
    nlinarith [g.nu_gt, sq_nonneg g.tQuantile]
  exact mul_nonneg (mul_nonneg (Real.sqrt_nonneg _) (div_nonneg h2 h1.le))
    (div_nonneg g.tPdf_nonneg (by norm_num))

/-- Claim C7 counterexample: the historical fallback computes
ES_95 = abs(tail.mean()), not the claim's literal "mean of observations at or
below minus VaR_95". On the two-period portfolio series (-1000, 1000) with
weights (1, 0): VaR_95 = 900, the qualifying observations are {-1000} with
mean -1000, and the code returns ES_95 = 1000, not -1000 (the literal claim
value, which would also contradict the claim that ES_95 is nonnegative). -/
theorem stressTest_es_sign_violation :
    (runStressTest 2 2 252 !![(-10 : ℚ), 0; 10, 0] ![1, 0] none).getD 2 ("", 0)
      = ("ES_95", ((1000 : ℚ) : ℝ)) ∧
    listMean (tailObs (portfolioSeries 2 2 !![(-10 : ℚ), 0; 10, 0] ![1, 0]))
      = -1000 ∧
    ((1000 : ℚ) : ℝ) ≠ ((-1000 : ℚ) : ℝ) := by
  have hseries : portfolioSeries 2 2 !![(-10 : ℚ), 0; 10, 0] ![1, 0]
      = [-1000, 1000] := by
    norm_num [portfolioSeries, List.ofFn_succ, Fin.sum_univ_two]
  have hsort : List.mergeSort [(-1000 : ℚ), 1000] (fun a b => a ≤ b)
      = [-1000, 1000] := by
    apply List.mergeSort_of_sorted
    simp [List.pairwise_cons]
  have hp5 : percentile5 [(-1000 : ℚ), 1000] = -900 := by
    rw [percentile5, hsort]
    norm_num [List.getD]
  have hVaR : fallbackVaR [(-1000 : ℚ), 1000] = 900 := by
    rw [fallbackVaR, hp5]
    norm_num
  have htail : tailObs [(-1000 : ℚ), 1000] = [-1000] := by
    rw [tailObs, hVaR]
    norm_num [List.filter]
  have hmean : listMean [(-1000 : ℚ)] = -1000 := by
    norm_num [listMean]
  have hes : fallbackES [(-1000 : ℚ), 1000] = 1000 := by
    rw [fallbackES, htail, hmean]
    norm_num
  refine ⟨?_, ?_, by norm_num⟩
  · simp only [runStressTest, hseries]
    simp [List.getD, hes]
  · rw [hseries, htail, hmean]

/-! ### MarketRegime: Mahalanobis score and classification -/

/-- The four Moore-Penrose equations: the documented semantics of
`np.linalg.pinv`, whose value has no closed rational form in general;
`get_status` consumes any matrix satisfying them for the weekly covariance. -/
def IsMoorePenroseInv (N : ℕ) (A M : Matrix (Fin N) (Fin N) ℚ) : Prop :=
  A * M * A = A ∧ M * A * M = M ∧ (A * M).transpose = A * M ∧
    (M * A).transpose = M * A

/-- The status dict returned by `MarketRegime.get_status`. -/
structure RegimeStatus where
  score : ℚ
  color : String
  message : String

/-- The Mahalanobis score of `get_status`:
`diff.values.dot(cov_inv).dot(diff.values.T)` where diff is the latest weekly
return row minus the mean vector. -/
def regimeScore (T N : ℕ) (covInv : Matrix (Fin N) (Fin N) ℚ)
    (weekly : Matrix (Fin T) (Fin N) ℚ) (ht : 0 < T) : ℚ :=
  let mu := colMean T N weekly
  let diff := fun i => weekly ⟨T - 1, Nat.sub_lt ht Nat.one_pos⟩ i - mu i
  Matrix.dotProduct diff (covInv.mulVec diff)

/-- The body of the `try` block of `MarketRegime.get_status`: on an empty
weekly matrix `iloc[-1]` raises IndexError (the only raise site in exact
arithmetic); otherwise the score is thresholded at 12 and 25. The external
`np.linalg.pinv` result is the `covInv` argument. -/
def getStatusInner (T N : ℕ) (covInv : Matrix (Fin N) (Fin N) ℚ)
    (weekly : Matrix (Fin T) (Fin N) ℚ) : Except String RegimeStatus :=
  if ht : 0 < T then
    let score := regimeScore T N covInv weekly ht
    if score < 12 then Except.ok ⟨score, "Green", "Calm"⟩
    else if score < 25 then Except.ok ⟨score, "Yellow", "Choppy"⟩
    else Except.ok ⟨score, "Red", "Turbulent"⟩
  else Except.error "single positional indexer is out-of-bounds"

/-- `MarketRegime.get_status`: any exception in the body yields the safe
default `{score: 0.0, color: Green, message: Unknown}`. -/
def getStatus (T N : ℕ) (covInv : Matrix (Fin N) (Fin N) ℚ)
    (weekly : Matrix (Fin T) (Fin N) ℚ) : RegimeStatus :=
  match getStatusInner T N covInv weekly with
  | Except.ok s => s
  | Except.error _ => ⟨0, "Green", "Unknown"⟩

theorem sampleCov_transpose (T N : ℕ) (r : Matrix (Fin T) (Fin N) ℚ) :
    (sampleCov T N r).transpose = sampleCov T N r := by
  ext i j
  simp only [Matrix.transpose_apply, sampleCov, Matrix.of_apply]
  congr 1
  exact Finset.sum_congr rfl fun t _ => mul_comm _ _

theorem mp_eq_of_isMP (N : ℕ) (A M₁ M₂ : Matrix (Fin N) (Fin N) ℚ)
    (h1 : IsMoorePenroseInv N A M₁) (h2 : IsMoorePenroseInv N A M₂) :
    M₁ = M₂ := by
  obtain ⟨h1a, h1b, h1c, h1d⟩ := h1
  obtain ⟨h2a, h2b, h2c, h2d⟩ := h2
  have tpose_AMA : ∀ B : Matrix (Fin N) (Fin N) ℚ,
      B.transpose * M₁.transpose * B.transpose = (B * M₁ * B).transpose := by
    intro B
    rw [Matrix.transpose_mul, Matrix.transpose_mul]
    noncomm_ring
  have key1 : M₁ = M₁ * A * M₂ := by
    calc M₁ = M₁ * A * M₁ := h1b.symm
      _ = M₁ * (A * M₂ * A) * M₁ := by rw [h2a]
      _ = M₁ * (A * M₂) * (A * M₁) := by noncomm_ring
      _ = M₁ * (A * M₂).transpose * (A * M₁).transpose := by rw [h2c, h1c]
      _ = M₁ * (M₂.transpose * A.transpose) * (M₁.transpose * A.transpose) := by
          rw [Matrix.transpose_mul, Matrix.transpose_mul]
      _ = M₁ * M₂.transpose * (A.transpose * M₁.transpose * A.transpose) := by
          noncomm_ring
      _ = M₁ * M₂.transpose * (A * M₁ * A).transpose := by rw [tpose_AMA A]
      _ = M₁ * M₂.transpose * A.transpose := by rw [h1a]
      _ = M₁ * (A * M₂).transpose := by
          rw [Matrix.transpose_mul]
          noncomm_ring
      _ = M₁ * (A * M₂) := by rw [h2c]
      _ = M₁ * A * M₂ := by noncomm_ring
  have key2 : M₂ = M₁ * A * M₂ := by
    calc M₂ = M₂ * A * M₂ := h2b.symm
      _ = M₂ * (A * M₁ * A) * M₂ := by rw [h1a]
      _ = (M₂ * A) * (M₁ * A) * M₂ := by noncomm_ring
      _ = (M₂ * A).transpose * (M₁ * A).transpose * M₂ := by rw [h2d, h1d]
      _ = (A.transpose * M₂.transpose) * (A.transpose * M₁.transpose) * M₂ := by
          rw [Matrix.transpose_mul, Matrix.transpose_mul]
      _ = (A.transpose * M₂.transpose * A.transpose) * (M₁.transpose * M₂) := by
          noncomm_ring
      _ = (A * M₂ * A).transpose * (M₁.transpose * M₂) := by
          rw [Matrix.transpose_mul, Matrix.transpose_mul]
          noncomm_ring
      _ = A.transpose * (M₁.transpose * M₂) := by rw [h2a]
      _ = (M₁ * A).transpose * M₂ := by
          rw [Matrix.transpose_mul]
          noncomm_ring
      _ = M₁ * A * M₂ := by rw [h1d]
  rw [key1, ← key2]

theorem isMP_transpose (N : ℕ) (A M : Matrix (Fin N) (Fin N) ℚ)
    (hAs : A.transpose = A) (h : IsMoorePenroseInv N A M) :
    IsMoorePenroseInv N A M.transpose := by
  obtain ⟨ha, hb, hc, hd⟩ := h
  have hMA : M * A = A * M.transpose := by
    calc M * A = (M * A).transpose := hd.symm
      _ = A.transpose * M.transpose := by rw [Matrix.transpose_mul]
      _ = A * M.transpose := by rw [hAs]
  have hAM : A * M = M.transpose * A := by
    calc A * M = (A * M).transpose := hc.symm
      _ = M.transpose * A.transpose := by rw [Matrix.transpose_mul]
      _ = M.transpose * A := by rw [hAs]
  refine ⟨?_, ?_, ?_, ?_⟩
  · calc A * M.transpose * A = A.transpose * M.transpose * A.transpose := by
          rw [hAs]
      _ = (A * M * A).transpose := by
          rw [Matrix.transpose_mul, Matrix.transpose_mul]
          noncomm_ring
      _ = A.transpose := by rw [ha]
      _ = A := hAs
  · calc M.transpose * A * M.transpose
        = M.transpose * A.transpose * M.transpose := by rw [hAs]
      _ = (M * A * M).transpose := by
          rw [Matrix.transpose_mul, Matrix.transpose_mul]
          noncomm_ring
      _ = M.transpose := by rw [hb]
  · calc (A * M.transpose).transpose = M * A.transpose := by
          rw [Matrix.transpose_mul, Matrix.transpose_transpose]
      _ = M * A := by rw [hAs]
      _ = A * M.transpose := hMA
  · calc (M.transpose * A).transpose = A.transpose * M := by
          rw [Matrix.transpose_mul, Matrix.transpose_transpose]
      _ = A * M := by rw [hAs]
      _ = M.transpose * A := hAM

theorem mp_symm_of_symm (N : ℕ) (A M : Matrix (Fin N) (Fin N) ℚ)
    (hAs : A.transpose = A) (h : IsMoorePenroseInv N A M) :
    M.transpose = M :=
  mp_eq_of_isMP N A M.transpose M (isMP_transpose N A M hAs h) h

theorem mp_quadform_nonneg (N : ℕ) (A M : Matrix (Fin N) (Fin N) ℚ)
    (hA : IsPSD N A) (hAs : A.transpose = A) (hM : IsMoorePenroseInv N A M)
    (d : Fin N → ℚ) : 0 ≤ Matrix.dotProduct d (M.mulVec d) := by
  have hMs : M.transpose = M := mp_symm_of_symm N A M hAs hM
  obtain ⟨_, hb, _, _⟩ := hM
  have key : Matrix.dotProduct d (M.mulVec d)
      = Matrix.dotProduct (M.mulVec d) (A.mulVec (M.mulVec d)) := by
    conv_lhs => rw [← hb]
    rw [show ((M * A * M).mulVec d) = M.mulVec (A.mulVec (M.mulVec d)) by
      rw [Matrix.mulVec_mulVec, Matrix.mulVec_mulVec]]
    rw [Matrix.dotProduct_mulVec]
    congr 1
    conv_lhs => rw [← hMs]
    rw [Matrix.vecMul_transpose]
  rw [key]
  exact hA _

/-- Claim C5: for a nonempty weekly return matrix and any Moore-Penrose
pseudo-inverse M of its sample covariance (the contract of np.linalg.pinv),
get_status returns a nonnegative score — in exact arithmetic the quadratic
form in the pseudo-inverse of the positive-semidefinite covariance is
provably nonnegative, with no clamp needed — and a message that is exactly
one of Calm, Choppy, Turbulent: Calm iff score < 12, Choppy iff
12 ≤ score < 25, Turbulent iff 25 ≤ score. -/
theorem getStatus_score_classification (T N : ℕ)
    (weekly : Matrix (Fin T) (Fin N) ℚ) (M : Matrix (Fin N) (Fin N) ℚ)
    (hM : IsMoorePenroseInv N (sampleCov T N weekly) M) (hT : 0 < T) :
    0 ≤ (getStatus T N M weekly).score ∧
    ((getStatus T N M weekly).message = "Calm" ∨
      (getStatus T N M weekly).message = "Choppy" ∨
      (getStatus T N M weekly).message = "Turbulent") ∧
    ((getStatus T N M weekly).message = "Calm" ↔
      (getStatus T N M weekly).score < 12) ∧
    ((getStatus T N M weekly).message = "Choppy" ↔
      (12 ≤ (getStatus T N M weekly).score ∧
        (getStatus T N M weekly).score < 25)) ∧
    ((getStatus T N M weekly).message = "Turbulent" ↔
      25 ≤ (getStatus T N M weekly).score) := by
  have hscore : 0 ≤ regimeScore T N M weekly hT :=
    mp_quadform_nonneg N (sampleCov T N weekly) M (sampleCov_psd T N weekly)
      (sampleCov_transpose T N weekly) hM _
  have hred : getStatus T N M weekly =
      (if regimeScore T N M weekly hT < 12 then
        (⟨regimeScore T N M weekly hT, "Green", "Calm"⟩ : RegimeStatus)
      else if regimeScore T N M weekly hT < 25 then
        ⟨regimeScore T N M weekly hT, "Yellow", "Choppy"⟩
      else ⟨regimeScore T N M weekly hT, "Red", "Turbulent"⟩) := by
    simp only [getStatus, getStatusInner, dif_pos hT]
    split_ifs <;> rfl
  rw [hred]
  split_ifs with h1 h2
  · refine ⟨hscore, Or.inl rfl, ?_, ?_, ?_⟩
    · simp only [true_iff]
      exact h1
    · constructor
      · intro hcon
        simp at hcon
      · intro hcon
        linarith [hcon.1]
    · constructor
      · intro hcon
        simp at hcon
      · intro hcon
        linarith
  · refine ⟨hscore, Or.inr (Or.inl rfl), ?_, ?_, ?_⟩
    · constructor
      · intro hcon
        simp at hcon
      · intro hcon
        linarith
    · simp only [true_iff]
      exact ⟨le_of_not_lt h1, h2⟩
    · constructor
      · intro hcon
        simp at hcon
      · intro hcon
        linarith
  · refine ⟨hscore, Or.inr (Or.inr rfl), ?_, ?_, ?_⟩
    · constructor
      · intro hcon
        simp at hcon
      · intro hcon
        linarith
    · constructor
      · intro hcon
        simp at hcon
      · intro hcon
        linarith [hcon.2]
    · simp only [true_iff]
      exact le_of_not_lt h2

/-- Claim C5, witness: a 5-week, 2-asset return matrix whose weekly sample
covariance is the identity, with the identity as its (exact) Moore-Penrose
pseudo-inverse; the latest row equals the mean, giving score 0 and Calm. -/
theorem getStatus_score_classification_witness :
    IsMoorePenroseInv 2
      (sampleCov 5 2 !![(1 : ℚ), 1; -1, 1; 1, -1; -1, -1; 0, 0]) 1 ∧
    0 < 5 ∧
    (0 ≤ (getStatus 5 2 1 !![(1 : ℚ), 1; -1, 1; 1, -1; -1, -1; 0, 0]).score ∧
    ((getStatus 5 2 1 !![(1 : ℚ), 1; -1, 1; 1, -1; -1, -1; 0, 0]).message = "Calm" ∨
      (getStatus 5 2 1 !![(1 : ℚ), 1; -1, 1; 1, -1; -1, -1; 0, 0]).message = "Choppy" ∨
      (getStatus 5 2 1 !![(1 : ℚ), 1; -1, 1; 1, -1; -1, -1; 0, 0]).message = "Turbulent") ∧
    ((getStatus 5 2 1 !![(1 : ℚ), 1; -1, 1; 1, -1; -1, -1; 0, 0]).message = "Calm" ↔
      (getStatus 5 2 1 !![(1 : ℚ), 1; -1, 1; 1, -1; -1, -1; 0, 0]).score < 12) ∧
    ((getStatus 5 2 1 !![(1 : ℚ), 1; -1, 1; 1, -1; -1, -1; 0, 0]).message = "Choppy" ↔
      (12 ≤ (getStatus 5 2 1 !![(1 : ℚ), 1; -1, 1; 1, -1; -1, -1; 0, 0]).score ∧
        (getStatus 5 2 1 !![(1 : ℚ), 1; -1, 1; 1, -1; -1, -1; 0, 0]).score < 25)) ∧
    ((getStatus 5 2 1 !![(1 : ℚ), 1; -1, 1; 1, -1; -1, -1; 0, 0]).message = "Turbulent" ↔
      25 ≤ (getStatus 5 2 1 !![(1 : ℚ), 1; -1, 1; 1, -1; -1, -1; 0, 0]).score)) := by
  have hcov : sampleCov 5 2 !![(1 : ℚ), 1; -1, 1; 1, -1; -1, -1; 0, 0] = 1 := by
    ext i j
    fin_cases i <;> fin_cases j <;>
      norm_num [sampleCov, colMean, Fin.sum_univ_five, Matrix.one_apply]
  have hM : IsMoorePenroseInv 2
      (sampleCov 5 2 !![(1 : ℚ), 1; -1, 1; 1, -1; -1, -1; 0, 0]) 1 := by
    rw [hcov]
    refine ⟨?_, ?_, ?_, ?_⟩ <;> simp
  exact ⟨hM, by norm_num,
    getStatus_score_classification 5 2 !![(1 : ℚ), 1; -1, 1; 1, -1; -1, -1; 0, 0]
      1 hM (by norm_num)⟩

/-- Claim C9: get_status always returns a result; whenever the inner score
computation raises (in exact arithmetic the only raise site is the iloc[-1]
lookup on an empty weekly matrix — pinv and the degenerate-covariance cases
are total), the result is the safe default {score: 0, Green, Unknown}, and on
success it is exactly the computed status — the request pipeline is never
aborted by regime classification. -/
theorem getStatus_never_fails (T N : ℕ) (covInv : Matrix (Fin N) (Fin N) ℚ)
    (weekly : Matrix (Fin T) (Fin N) ℚ) :
    (∀ e, getStatusInner T N covInv weekly = Except.error e →
      getStatus T N covInv weekly = ⟨0, "Green", "Unknown"⟩) ∧
    (∀ s, getStatusInner T N covInv weekly = Except.ok s →
      getStatus T N covInv weekly = s) := by
  constructor <;> intro x hx <;> simp [getStatus, hx]

/-- Claim C9, witness: the empty weekly matrix makes the inner computation
raise, and get_status returns the safe default. -/
theorem getStatus_never_fails_witness :
    getStatusInner 0 2 (1 : Matrix (Fin 2) (Fin 2) ℚ)
      (Matrix.of fun _ _ => (0 : ℚ))
      = Except.error "single positional indexer is out-of-bounds" ∧
    getStatus 0 2 (1 : Matrix (Fin 2) (Fin 2) ℚ)
      (Matrix.of fun _ _ => (0 : ℚ)) = ⟨0, "Green", "Unknown"⟩ :=
  ⟨rfl, (getStatus_never_fails 0 2 1 (Matrix.of fun _ _ => 0)).1
    "single positional indexer is out-of-bounds" rfl⟩

end RiskLens
